import Mathlib

/-!
Verification of the radial-velocity pipeline of `orbit.py`.

The development shallowly embeds the source in Lean over the real numbers:

* `kepler`, `vr` embed the module-level equation helpers;
* `linspace` models `numpy.linspace` (uniform inclusive grid);
* `solveAll` models the per-sample root solving loop
  `[sp.newton(kepler, Mk, (e, Mk)) for Mk in M]`, taking the root finder as a
  parameter `solve` (the concrete instance `exactSolve` below idealizes the
  external `scipy.optimize.newton` as an exact Kepler-equation solver, and a
  root finder that gives up is modelled by returning `none`, surfaced as a
  `convergenceError` carrying the offending mean anomaly, matching the
  exception scipy raises when its iteration budget is exhausted);
* `trueAnoms` embeds the geometry stage `r = a*(1.-e*np.cos(E))`,
  `f = np.arccos(((a*(1.-e**2)/r)-1.0)/e)` (note the division by `e`);
* `unwrapHalf` embeds the slice update
  `f[(NT-1)/2:] += 2*(np.pi-f[(NT-1)/2:])`.  `NT` is an int, so `(NT-1)/2`
  is Python 2 integer floor division (the module's own example runs with
  `NT = 1000`, slicing at index 499): samples from index `(NT-1)/2` on are
  rewritten, the earlier ones kept, for every `NT`;
* `interpSeg` / `interpPeriodic` model `np.interp(ts, t, RV, period = T)` for
  the strictly increasing one-period grid used by the source: the target time
  is reduced modulo the period relative to the grid origin and linearly
  interpolated on the node list, clamping outside the node range;
* `onePeriodCurve` and `get_RVs` assemble the stages exactly as the source
  function `get_RVs` does.

Division by zero in the embedding follows Lean's `x / 0 = 0` convention where
the floating-point source would produce `inf`/`nan`; the places where this
matters (the division by `e` in the geometry stage at `e = 0`) are called out
at the corresponding claims.
-/

/-- The Kepler equation (Eq. 41 of Murray & Correia), as in the source:
`kepler(E, e, M) = E - e*np.sin(E) - M`. -/
noncomputable def kepler (E e M : ℝ) : ℝ :=
  E - e * Real.sin E - M

/-- The radial-velocities equation (Eq. 65), as in the source `vr`:
`w` is first rescaled in place by `w *= np.pi/180.`, then
`VZ + K*(np.cos(w+f) + e*np.cos(w))` is returned. -/
noncomputable def vr (VZ K w f e : ℝ) : ℝ :=
  let w2 := w * (Real.pi / 180)
  VZ + K * (Real.cos (w2 + f) + e * Real.cos w2)

/-- Model of `np.linspace(a, b, n)`: `n` evenly spaced samples over the
closed interval `[a, b]`; a single sample sits at `a`. -/
noncomputable def linspace (a b : ℝ) (n : ℕ) : List ℝ :=
  if n = 1 then [a]
  else (List.range n).map (fun i : ℕ => a + (b - a) * (i : ℝ) / ((n : ℝ) - 1))

/-- The mean-anomaly sequence of the source, `M = 2*np.pi/T*(t-t0)` over the
one-period grid `t = np.linspace(t0, t0+T, NT)`. -/
noncomputable def meanAnoms (T t0 : ℝ) (NT : ℕ) : List ℝ :=
  (linspace t0 (t0 + T) NT).map (fun tk => 2 * Real.pi / T * (tk - t0))

/-- Runtime failure of the pipeline: the root solver exhausting its
iteration budget at a mean anomaly. -/
inductive OrbitError : Type where
  | convergenceError : ℝ → OrbitError

/-- Modelled from the spec: the external root finder `scipy.optimize.newton`
(whose source is not part of this repository) is taken as a parameter
`solve e M`; it either produces an eccentric anomaly or gives up (`none`).
`solveAll` is the source's per-sample comprehension
`[sp.newton(func = kepler, x0 = Mk, args = (e, Mk)) for Mk in M]`: samples are
solved in order and the first failure aborts the whole computation, surfaced
with the offending mean-anomaly value. -/
def solveAll (solve : ℝ → ℝ → Option ℝ) (e : ℝ) : List ℝ → Except OrbitError (List ℝ)
  | [] => .ok []
  | M :: rest =>
    match solve e M with
    | none => .error (.convergenceError M)
    | some E =>
      match solveAll solve e rest with
      | .error err => .error err
      | .ok Es => .ok (E :: Es)

/-- The geometry stage of the source: `r = a*(1.-e*np.cos(E))` followed by
`f = np.arccos(((a*(1.-e**2)/r)-1.0)/e)`, one value per sample.  Note the
argument of `arccos` divides by the eccentricity `e`. -/
noncomputable def trueAnoms (e a : ℝ) (Es : List ℝ) : List ℝ :=
  ((Es.map (fun Ek => a * (1 - e * Real.cos Ek))).map
    (fun rk => Real.arccos ((a * (1 - e ^ 2) / rk - 1) / e)))

/-- The half-period unwrap of the source,
`f[(NT-1)/2:] += 2*(np.pi-f[(NT-1)/2:])`.  `NT` is an int, so the slice
position `(NT-1)/2` is Python 2 integer floor division (the module's own
example runs with `NT = 1000`, slicing at index 499); the slice applies for
every `NT`: the samples from index `(NT-1)/2` on are replaced by
`f + 2*(pi - f)`, the earlier ones kept. -/
noncomputable def unwrapHalf (NT : ℕ) (f : List ℝ) : List ℝ :=
  f.take ((NT - 1) / 2) ++
    (f.drop ((NT - 1) / 2)).map (fun x => x + 2 * (Real.pi - x))

/-- The one-period part of the source's `get_RVs`: the time grid, mean
anomalies, per-sample eccentric anomalies, geometry stage, half-period unwrap
and radial velocities, returning the reference pair `(t, RV)`. -/
noncomputable def onePeriodCurve (solve : ℝ → ℝ → Option ℝ)
    (K T t0 w e a VZ : ℝ) (NT : ℕ) : Except OrbitError (List ℝ × List ℝ) :=
  let t := linspace t0 (t0 + T) NT
  let M := meanAnoms T t0 NT
  match solveAll solve e M with
  | .error err => .error err
  | .ok Es =>
    let f := trueAnoms e a Es
    let f2 := unwrapHalf NT f
    .ok (t, f2.map (fun fk => vr VZ K w fk e))

/-- Linear interpolation on a list of `(x, y)` nodes with increasing `x`,
clamped to the first/last node value outside the node range; this is the
core of `np.interp` for a sorted sample grid. -/
noncomputable def interpSeg (x : ℝ) : List (ℝ × ℝ) → ℝ
  | [] => 0
  | [p] => p.2
  | p :: q :: rest =>
    if x ≤ p.1 then p.2
    else if x ≤ q.1 then
      p.2 + (x - p.1) * (q.2 - p.2) / (q.1 - p.1)
    else interpSeg x (q :: rest)

/-- Reduction of a target time into the fundamental period `[t0, t0 + T)`
relative to the phase origin `t0` of the reference grid. -/
noncomputable def wrapTime (t0 T x : ℝ) : ℝ :=
  x - T * ⌊(x - t0) / T⌋

/-- Model of `np.interp(x, xp, fp, period = T)` for the strictly increasing
one-period grid produced by the source: the target is reduced modulo `T`
relative to the grid's first node and linearly interpolated on the nodes. -/
noncomputable def interpPeriodic (T x : ℝ) (xp fp : List ℝ) : ℝ :=
  interpSeg (wrapTime xp.headI T x) (xp.zip fp)

/-- The source's entry point `get_RVs`: the one-period reference curve,
the requested grid `ts = np.linspace(start, end, N)` and the periodic
interpolation `RVs = np.interp(ts, t, RV, period = T)`. -/
noncomputable def get_RVs (solve : ℝ → ℝ → Option ℝ)
    (K T t0 w e a VZ startT endT : ℝ) (NT N : ℕ) :
    Except OrbitError (List ℝ × List ℝ) :=
  match onePeriodCurve solve K T t0 w e a VZ NT with
  | .error err => .error err
  | .ok (t, RV) =>
    let ts := linspace startT endT N
    .ok (ts, ts.map (fun x => interpPeriodic T x t RV))

/-- Modelled from the spec: the absolute residual tolerance of the root
solve; `scipy.optimize.newton`'s default tolerance, `1.48e-8`. -/
noncomputable def tolerance : ℝ := 1.48 / 10 ^ 8

/-- Modelled from the spec: the external solver `scipy.optimize.newton`
idealized as an exact solver of the Kepler equation — it returns a real root
of `kepler · e M` (by choice; such a root always exists, and it is unique for
`0 ≤ e < 1`). -/
noncomputable def keplerRoot (e M : ℝ) : ℝ :=
  Classical.epsilon (fun E => kepler E e M = 0)

/-- Modelled from the spec: the idealized root finder, always converging to
the exact root. -/
noncomputable def exactSolve : ℝ → ℝ → Option ℝ :=
  fun e M => some (keplerRoot e M)

/-- A root finder whose iteration budget is always exhausted; used to
exercise the convergence-failure path. -/
def failSolve : ℝ → ℝ → Option ℝ :=
  fun _ _ => none

-- ### Basic facts about the embedded definitions

theorem kepler_continuous (e M : ℝ) : Continuous (fun E => kepler E e M) := by
  unfold kepler
  exact (continuous_id.sub (continuous_const.mul Real.continuous_sin)).sub continuous_const

theorem kepler_root_exists (e M : ℝ) : ∃ E, kepler E e M = 0 := by
  have hcont : ContinuousOn (fun E => kepler E e M) (Set.Icc (M - |e|) (M + |e|)) :=
    (kepler_continuous e M).continuousOn
  have hle : M - |e| ≤ M + |e| := by
    have := abs_nonneg e
    linarith
  have hlo : kepler (M - |e|) e M ≤ 0 := by
    have h1 : e * Real.sin (M - |e|) ≥ -|e| := by
      have := abs_mul e (Real.sin (M - |e|))
      have hs : |e * Real.sin (M - |e|)| ≤ |e| := by
        rw [abs_mul]
        have := Real.abs_sin_le_one (M - |e|)
        calc |e| * |Real.sin (M - |e|)| ≤ |e| * 1 :=
              mul_le_mul_of_nonneg_left (Real.abs_sin_le_one _) (abs_nonneg e)
          _ = |e| := mul_one _
      have := neg_abs_le (e * Real.sin (M - |e|))
      have := abs_le.mp hs
      linarith [this.1]
    unfold kepler
    linarith
  have hhi : 0 ≤ kepler (M + |e|) e M := by
    have hs : |e * Real.sin (M + |e|)| ≤ |e| := by
      rw [abs_mul]
      calc |e| * |Real.sin (M + |e|)| ≤ |e| * 1 :=
            mul_le_mul_of_nonneg_left (Real.abs_sin_le_one _) (abs_nonneg e)
        _ = |e| := mul_one _
    have := abs_le.mp hs
    unfold kepler
    linarith [this.2]
  have hmem : (0 : ℝ) ∈ Set.Icc (kepler (M - |e|) e M) (kepler (M + |e|) e M) :=
    ⟨hlo, hhi⟩
  have := intermediate_value_Icc hle hcont hmem
  obtain ⟨E, _, hE⟩ := this
  exact ⟨E, hE⟩

theorem keplerRoot_isRoot (e M : ℝ) : kepler (keplerRoot e M) e M = 0 :=
  Classical.epsilon_spec (kepler_root_exists e M)

theorem kepler_strictMono (e : ℝ) (h0 : 0 ≤ e) (h1 : e < 1) :
    StrictMono (fun E => E - e * Real.sin E) := by
  intro x y hxy
  have hlip : |Real.sin y - Real.sin x| ≤ |y - x| := by
    rw [Real.sin_sub_sin, abs_mul, abs_mul]
    have h1 : |Real.sin ((y - x) / 2)| ≤ |(y - x) / 2| := Real.abs_sin_le_abs
    have h2 : |Real.cos ((y + x) / 2)| ≤ 1 := Real.abs_cos_le_one _
    have h3 : (0 : ℝ) ≤ |2| * |Real.sin ((y - x) / 2)| :=
      mul_nonneg (abs_nonneg _) (abs_nonneg _)
    calc |(2 : ℝ)| * |Real.sin ((y - x) / 2)| * |Real.cos ((y + x) / 2)|
        ≤ |(2 : ℝ)| * |Real.sin ((y - x) / 2)| * 1 :=
          mul_le_mul_of_nonneg_left h2 h3
      _ = |(2 : ℝ)| * |Real.sin ((y - x) / 2)| := mul_one _
      _ ≤ |(2 : ℝ)| * |(y - x) / 2| :=
          mul_le_mul_of_nonneg_left h1 (abs_nonneg _)
      _ = |y - x| := by
          rw [abs_div]
          norm_num
          ring
  have habs : |y - x| = y - x := abs_of_pos (by linarith)
  have hsin : e * (Real.sin y - Real.sin x) ≤ e * (y - x) := by
    have h2 : Real.sin y - Real.sin x ≤ y - x := by
      have := (abs_le.mp hlip).2
      rw [habs] at this
      linarith
    exact mul_le_mul_of_nonneg_left h2 h0
  have hlt : e * (y - x) < 1 * (y - x) := by
    rcases eq_or_lt_of_le h0 with he | he
    · rw [← he]; simp; linarith
    · exact mul_lt_mul_of_pos_right h1 (by linarith)
  simp only
  nlinarith

theorem keplerRoot_eq (e M E : ℝ) (h0 : 0 ≤ e) (h1 : e < 1)
    (hE : kepler E e M = 0) : keplerRoot e M = E := by
  have hinj := (kepler_strictMono e h0 h1).injective
  have hr := keplerRoot_isRoot e M
  unfold kepler at hr hE
  apply hinj
  simp only
  linarith

theorem keplerRoot_zero_mean (e : ℝ) (h0 : 0 ≤ e) (h1 : e < 1) :
    keplerRoot e 0 = 0 := by
  apply keplerRoot_eq e 0 0 h0 h1
  simp [kepler]

theorem keplerRoot_two_pi (e : ℝ) (h0 : 0 ≤ e) (h1 : e < 1) :
    keplerRoot e (2 * Real.pi) = 2 * Real.pi := by
  apply keplerRoot_eq e (2 * Real.pi) (2 * Real.pi) h0 h1
  simp [kepler, Real.sin_two_pi]

theorem keplerRoot_circular (M : ℝ) : keplerRoot 0 M = M := by
  apply keplerRoot_eq 0 M M le_rfl one_pos
  simp [kepler]

-- ### Grid lemmas

theorem linspace_length (a b : ℝ) (n : ℕ) : (linspace a b n).length = n := by
  unfold linspace
  split
  · simp [*]
  · rw [List.length_map, List.length_range]

theorem linspace_ne_nil (a b : ℝ) (n : ℕ) (h : 1 ≤ n) : linspace a b n ≠ [] := by
  apply List.ne_nil_of_length_pos
  rw [linspace_length]
  omega

theorem linspace_getD (a b : ℝ) (n i : ℕ) (h2 : 2 ≤ n) (hi : i < n) :
    (linspace a b n).getD i 0 = a + (b - a) * i / ((n : ℝ) - 1) := by
  unfold linspace
  rw [if_neg (by omega)]
  rw [List.getD_eq_getElem _ _
    (by rw [List.length_map, List.length_range]; exact hi)]
  rw [List.getElem_map, List.getElem_range]

theorem linspace_getD_zero (a b : ℝ) (n : ℕ) (h : 1 ≤ n) :
    (linspace a b n).getD 0 0 = a := by
  rcases eq_or_lt_of_le h with h1 | h1
  · unfold linspace
    rw [if_pos h1.symm]
    rfl
  · rw [linspace_getD a b n 0 (by omega) (by omega)]
    simp

theorem linspace_getD_last (a b : ℝ) (n : ℕ) (h2 : 2 ≤ n) :
    (linspace a b n).getD (n - 1) 0 = b := by
  rw [linspace_getD a b n (n - 1) h2 (by omega)]
  have hn : ((n : ℝ) - 1) ≠ 0 := by
    have : (2 : ℝ) ≤ (n : ℝ) := by exact_mod_cast h2
    linarith
  have hcast : ((n - 1 : ℕ) : ℝ) = (n : ℝ) - 1 := by
    have : 1 ≤ n := by omega
    push_cast [this]
    ring
  rw [hcast]
  field_simp

theorem headI_eq_getD (l : List ℝ) (h : l ≠ []) : l.headI = l.getD 0 0 := by
  cases l with
  | nil => exact absurd rfl h
  | cons x xs => rfl

theorem linspace_headI (a b : ℝ) (n : ℕ) (h : 1 ≤ n) :
    (linspace a b n).headI = a := by
  rw [headI_eq_getD _ (linspace_ne_nil a b n h)]
  exact linspace_getD_zero a b n h

theorem meanAnoms_length (T t0 : ℝ) (NT : ℕ) : (meanAnoms T t0 NT).length = NT := by
  unfold meanAnoms
  rw [List.length_map, linspace_length]

theorem meanAnoms_getD (T t0 : ℝ) (NT i : ℕ) (hi : i < NT) :
    (meanAnoms T t0 NT).getD i 0 =
      2 * Real.pi / T * ((linspace t0 (t0 + T) NT).getD i 0 - t0) := by
  unfold meanAnoms
  rw [List.getD_eq_getElem?_getD, List.getElem?_map]
  rw [List.getElem?_eq_getElem (by rw [linspace_length]; exact hi)]
  rw [List.getD_eq_getElem _ _ (by rw [linspace_length]; exact hi)]
  rfl

-- ### Solver-loop lemmas

theorem solveAll_exact (e : ℝ) (Ms : List ℝ) :
    solveAll exactSolve e Ms = .ok (Ms.map (keplerRoot e)) := by
  induction Ms with
  | nil => rfl
  | cons M rest ih => simp [solveAll, exactSolve, ih]

theorem solveAll_ok_length (solve : ℝ → ℝ → Option ℝ) (e : ℝ)
    (Ms Es : List ℝ) (h : solveAll solve e Ms = .ok Es) :
    Es.length = Ms.length := by
  induction Ms generalizing Es with
  | nil =>
    simp only [solveAll] at h
    cases h
    rfl
  | cons M rest ih =>
    simp only [solveAll] at h
    cases hs : solve e M with
    | none => rw [hs] at h; cases h
    | some E =>
      rw [hs] at h
      cases hr : solveAll solve e rest with
      | error err => rw [hr] at h; cases h
      | ok Es' =>
        rw [hr] at h
        cases h
        simp [ih Es' hr]

theorem solveAll_first_fail (solve : ℝ → ℝ → Option ℝ) (e : ℝ)
    (Ms : List ℝ) (k : ℕ) (hk : k < Ms.length)
    (hprev : ∀ j, j < k → (solve e (Ms.getD j 0)).isSome = true)
    (hfail : solve e (Ms.getD k 0) = none) :
    solveAll solve e Ms = .error (.convergenceError (Ms.getD k 0)) := by
  induction Ms generalizing k with
  | nil => simp at hk
  | cons M rest ih =>
    cases k with
    | zero =>
      simp only [List.getD_cons_zero] at hfail ⊢
      simp [solveAll, hfail]
    | succ k' =>
      have h0 : (solve e M).isSome = true := by
        have := hprev 0 (Nat.succ_pos _)
        simpa using this
      obtain ⟨E, hE⟩ := Option.isSome_iff_exists.mp h0
      have hrec : solveAll solve e rest = .error (.convergenceError (rest.getD k' 0)) := by
        apply ih k' (by simpa using hk)
        · intro j hj
          have := hprev (j + 1) (by omega)
          simpa using this
        · simpa using hfail
      simp only [List.getD_cons_succ]
      simp [solveAll, hE, hrec]

-- ### Unwrap lemmas

theorem unwrapHalf_length (NT : ℕ) (f : List ℝ) :
    (unwrapHalf NT f).length = f.length := by
  unfold unwrapHalf
  simp only [List.length_append, List.length_take, List.length_map, List.length_drop]
  omega

theorem unwrapHalf_getD (NT : ℕ) (f : List ℝ) (hlen : f.length = NT)
    (i : ℕ) (hi : i < NT) :
    (unwrapHalf NT f).getD i 0 =
      if (NT - 1) / 2 ≤ i then f.getD i 0 + 2 * (Real.pi - f.getD i 0)
      else f.getD i 0 := by
  unfold unwrapHalf
  have hklen : (f.take ((NT - 1) / 2)).length = (NT - 1) / 2 := by
    rw [List.length_take]
    omega
  by_cases hik : i < (NT - 1) / 2
  · rw [if_neg (by omega)]
    rw [List.getD_eq_getElem?_getD, List.getElem?_append_left (by omega),
      List.getElem?_take_of_lt hik, ← List.getD_eq_getElem?_getD]
  · rw [if_pos (by omega)]
    rw [List.getD_eq_getElem?_getD, List.getElem?_append_right (by omega), hklen,
      List.getElem?_map, List.getElem?_drop]
    have harith : (NT - 1) / 2 + (i - (NT - 1) / 2) = i := by omega
    rw [harith, List.getElem?_eq_getElem (by omega), Option.map_some']
    rw [List.getD_eq_getElem _ _ (by omega)]
    rfl

-- ### Geometry-stage lemmas

theorem trueAnoms_length (e a : ℝ) (Es : List ℝ) :
    (trueAnoms e a Es).length = Es.length := by
  unfold trueAnoms
  simp

theorem trueAnoms_getD (e a : ℝ) (Es : List ℝ) (i : ℕ) (hi : i < Es.length) :
    (trueAnoms e a Es).getD i 0 =
      Real.arccos ((a * (1 - e ^ 2) / (a * (1 - e * Real.cos (Es.getD i 0))) - 1) / e) := by
  unfold trueAnoms
  rw [List.getD_eq_getElem?_getD, List.getElem?_map, List.getElem?_map]
  rw [List.getElem?_eq_getElem hi, Option.map_some', Option.map_some']
  rw [List.getD_eq_getElem _ _ hi]
  rfl

-- ### Interpolation lemmas

theorem zip_getD (l1 l2 : List ℝ) (i : ℕ) (h1 : i < l1.length) (h2 : i < l2.length) :
    (l1.zip l2).getD i (0, 0) = (l1.getD i 0, l2.getD i 0) := by
  have hz : i < (l1.zip l2).length := by
    rw [List.length_zip]
    omega
  rw [List.getD_eq_getElem _ _ hz, List.getD_eq_getElem _ _ h1,
    List.getD_eq_getElem _ _ h2]
  exact List.getElem_zip

theorem wrapTime_lb (t0 T x : ℝ) (hT : 0 < T) : t0 ≤ wrapTime t0 T x := by
  unfold wrapTime
  have hfr : (0 : ℝ) ≤ Int.fract ((x - t0) / T) := Int.fract_nonneg _
  have hx : x - T * ⌊(x - t0) / T⌋ - t0 = T * Int.fract ((x - t0) / T) := by
    unfold Int.fract
    field_simp
    ring
  nlinarith [mul_nonneg hT.le hfr]

theorem wrapTime_ub (t0 T x : ℝ) (hT : 0 < T) : wrapTime t0 T x < t0 + T := by
  unfold wrapTime
  have hfr : Int.fract ((x - t0) / T) < 1 := Int.fract_lt_one _
  have hx : x - T * ⌊(x - t0) / T⌋ - t0 = T * Int.fract ((x - t0) / T) := by
    unfold Int.fract
    field_simp
    ring
  nlinarith [mul_lt_mul_of_pos_left hfr hT]

theorem wrapTime_of_mem (t0 T x : ℝ) (hT : 0 < T) (h0 : t0 ≤ x) (h1 : x < t0 + T) :
    wrapTime t0 T x = x := by
  unfold wrapTime
  have hfl : ⌊(x - t0) / T⌋ = 0 := by
    rw [Int.floor_eq_zero_iff]
    constructor
    · exact div_nonneg (by linarith) hT.le
    · rw [div_lt_one hT]
      linarith
  rw [hfl]
  simp

theorem wrapTime_period_end (t0 T : ℝ) (hT : 0 < T) : wrapTime t0 T (t0 + T) = t0 := by
  unfold wrapTime
  have h1 : (t0 + T - t0) / T = 1 := by
    field_simp
  rw [h1]
  simp

theorem pairs_sorted_lt (ps : List (ℝ × ℝ))
    (hsort : ∀ j, j + 1 < ps.length → (ps.getD j (0, 0)).1 < (ps.getD (j + 1) (0, 0)).1)
    (j k : ℕ) (hjk : j < k) (hk : k < ps.length) :
    (ps.getD j (0, 0)).1 < (ps.getD k (0, 0)).1 := by
  induction k with
  | zero => omega
  | succ k' ih =>
    rcases Nat.lt_succ_iff_lt_or_eq.mp hjk with h | h
    · exact lt_trans (ih h (by omega)) (hsort k' hk)
    · subst h
      exact hsort j hk

theorem interpSeg_node (ps : List (ℝ × ℝ))
    (hsort : ∀ j, j + 1 < ps.length → (ps.getD j (0, 0)).1 < (ps.getD (j + 1) (0, 0)).1)
    (i : ℕ) (hi : i < ps.length) :
    interpSeg ((ps.getD i (0, 0)).1) ps = (ps.getD i (0, 0)).2 := by
  induction ps generalizing i with
  | nil => simp at hi
  | cons p tl ih =>
    cases i with
    | zero =>
      cases tl with
      | nil => simp [interpSeg]
      | cons q tl2 =>
        simp only [List.getD_cons_zero]
        rw [interpSeg]
        rw [if_pos le_rfl]
    | succ i' =>
      cases tl with
      | nil => simp at hi
      | cons q tl2 =>
        simp only [List.getD_cons_succ]
        have hlt0 : p.1 < ((q :: tl2).getD i' (0, 0)).1 := by
          have := pairs_sorted_lt (p :: q :: tl2) hsort 0 (i' + 1) (by omega) hi
          simpa using this
        have hshift : ∀ j, j + 1 < (q :: tl2).length →
            ((q :: tl2).getD j (0, 0)).1 < ((q :: tl2).getD (j + 1) (0, 0)).1 := by
          intro j hj
          have := hsort (j + 1) (by simpa using Nat.succ_lt_succ hj)
          simpa using this
        rw [interpSeg]
        rw [if_neg (not_le.mpr hlt0)]
        cases i' with
        | zero =>
          simp only [List.getD_cons_zero] at hlt0 ⊢
          rw [if_pos le_rfl]
          have hne : q.1 - p.1 ≠ 0 := by
            have := hlt0
            intro hc
            nlinarith
          field_simp
        | succ i'' =>
          have hlt1 : q.1 < ((q :: tl2).getD (i'' + 1) (0, 0)).1 := by
            have := pairs_sorted_lt (q :: tl2) hshift 0 (i'' + 1) (by omega)
              (by simpa using hi)
            simpa using this
          rw [if_neg (not_le.mpr hlt1)]
          exact ih hshift (i'' + 1) (by simpa using hi)

theorem interpSeg_bracket (ps : List (ℝ × ℝ)) (x : ℝ)
    (hlen : 2 ≤ ps.length)
    (hsort : ∀ j, j + 1 < ps.length → (ps.getD j (0, 0)).1 < (ps.getD (j + 1) (0, 0)).1)
    (hlo : (ps.getD 0 (0, 0)).1 ≤ x)
    (hhi : x ≤ (ps.getD (ps.length - 1) (0, 0)).1) :
    ∃ j, j + 1 < ps.length ∧ (ps.getD j (0, 0)).1 ≤ x ∧ x ≤ (ps.getD (j + 1) (0, 0)).1 ∧
      interpSeg x ps = (ps.getD j (0, 0)).2 +
        (x - (ps.getD j (0, 0)).1) * ((ps.getD (j + 1) (0, 0)).2 - (ps.getD j (0, 0)).2) /
          ((ps.getD (j + 1) (0, 0)).1 - (ps.getD j (0, 0)).1) := by
  induction ps with
  | nil => simp at hlen
  | cons p tl ih =>
    cases tl with
    | nil => simp at hlen
    | cons q tl2 =>
      by_cases hq : x ≤ q.1
      · refine ⟨0, by simp, by simpa using hlo, by simpa using hq, ?_⟩
        simp only [List.getD_cons_zero, List.getD_cons_succ]
        rw [interpSeg]
        by_cases hp : x ≤ p.1
        · rw [if_pos hp]
          have hxp : x = p.1 := le_antisymm hp (by simpa using hlo)
          rw [hxp]
          simp
        · rw [if_neg hp, if_pos hq]
      · cases tl2 with
        | nil =>
          exfalso
          apply hq
          simpa using hhi
        | cons r tl3 =>
          have hshift : ∀ j, j + 1 < (q :: r :: tl3).length →
              ((q :: r :: tl3).getD j (0, 0)).1 < ((q :: r :: tl3).getD (j + 1) (0, 0)).1 := by
            intro j hj
            have := hsort (j + 1) (by simpa using Nat.succ_lt_succ hj)
            simpa using this
          have hrec := ih (by simp) hshift
            (by simpa using le_of_lt (not_le.mp hq))
            (by simpa using hhi)
          obtain ⟨j, hj1, hj2, hj3, hj4⟩ := hrec
          refine ⟨j + 1, by simpa using Nat.succ_lt_succ hj1, by simpa using hj2,
            by simpa using hj3, ?_⟩
          simp only [List.getD_cons_succ]
          rw [interpSeg]
          have hpx : p.1 < x := by
            have hpq := hsort 0 (by simp)
            simp only [List.getD_cons_zero, List.getD_cons_succ] at hpq
            exact lt_trans (by simpa using hpq) (not_le.mp hq)
          rw [if_neg (not_le.mpr hpx), if_neg hq]
          exact hj4

-- ### Pipeline structural lemmas

theorem linspace_sorted (a b : ℝ) (n : ℕ) (hab : a < b) (h2 : 2 ≤ n)
    (j : ℕ) (hj : j + 1 < n) :
    (linspace a b n).getD j 0 < (linspace a b n).getD (j + 1) 0 := by
  rw [linspace_getD a b n j h2 (by omega), linspace_getD a b n (j + 1) h2 hj]
  have hden : (0 : ℝ) < (n : ℝ) - 1 := by
    have : (2 : ℝ) ≤ (n : ℝ) := by exact_mod_cast h2
    linarith
  have hba : (0 : ℝ) < b - a := by linarith
  have key : (b - a) * (j : ℝ) / ((n : ℝ) - 1) <
      (b - a) * ((j + 1 : ℕ) : ℝ) / ((n : ℝ) - 1) := by
    rw [div_lt_div_iff₀ hden hden]
    push_cast
    nlinarith
  linarith

theorem onePeriodCurve_exact (K T t0 w e a VZ : ℝ) (NT : ℕ) :
    onePeriodCurve exactSolve K T t0 w e a VZ NT =
      .ok (linspace t0 (t0 + T) NT,
        (unwrapHalf NT (trueAnoms e a ((meanAnoms T t0 NT).map (keplerRoot e)))).map
          (fun fk => vr VZ K w fk e)) := by
  unfold onePeriodCurve
  simp only [solveAll_exact]

theorem get_RVs_exact_ok (K T t0 w e a VZ startT endT : ℝ) (NT N : ℕ) :
    ∃ ts RVs : List ℝ,
      get_RVs exactSolve K T t0 w e a VZ startT endT NT N = .ok (ts, RVs) := by
  unfold get_RVs
  rw [onePeriodCurve_exact]
  exact ⟨_, _, rfl⟩

-- ### Claim C6

/-- C6: the Velocity Model is a pure total function of its five real inputs,
returning exactly `VZ + K*(cos(w_rad + f) + e*cos(w_rad))` with
`w_rad = w * pi / 180`; totality is inherent in the Lean function type. -/
theorem c6_velocity_model (VZ K w f e : ℝ) :
    vr VZ K w f e =
      VZ + K * (Real.cos (w * Real.pi / 180 + f) + e * Real.cos (w * Real.pi / 180)) := by
  unfold vr
  rw [show w * (Real.pi / 180) = w * Real.pi / 180 from by ring]

-- ### Claim C1

/-- C1: for every eccentricity `0 ≤ e < 1` and every mean anomaly of the
one-period anomaly sequence, the per-sample solve (with the external solver
modelled as the exact Kepler-equation solver) succeeds and every produced
eccentric anomaly satisfies the Kepler equation to within the residual
tolerance (here the residual is exactly zero). -/
theorem c1_solver_residual (T t0 e : ℝ) (NT : ℕ) (_h0 : 0 ≤ e) (_h1 : e < 1) :
    ∃ Es : List ℝ, solveAll exactSolve e (meanAnoms T t0 NT) = .ok Es ∧
      Es.length = NT ∧
      ∀ i, i < NT →
        |kepler (Es.getD i 0) e ((meanAnoms T t0 NT).getD i 0)| < tolerance := by
  refine ⟨_, solveAll_exact e _, ?_, ?_⟩
  · rw [List.length_map, meanAnoms_length]
  · intro i hi
    have hlen : i < (meanAnoms T t0 NT).length := by
      rw [meanAnoms_length]
      exact hi
    have hmap : ((meanAnoms T t0 NT).map (keplerRoot e)).getD i 0 =
        keplerRoot e ((meanAnoms T t0 NT).getD i 0) := by
      rw [List.getD_eq_getElem?_getD, List.getElem?_map, List.getElem?_eq_getElem hlen,
        Option.map_some', Option.getD_some, List.getD_eq_getElem _ _ hlen]
    rw [hmap, keplerRoot_isRoot, abs_zero]
    unfold tolerance
    norm_num

theorem c1_witness : (0 : ℝ) ≤ 0 ∧ (0 : ℝ) < 1 ∧
    ∃ Es : List ℝ, solveAll exactSolve 0 (meanAnoms 1 0 3) = .ok Es ∧
      Es.length = 3 ∧
      ∀ i, i < 3 →
        |kepler (Es.getD i 0) 0 ((meanAnoms 1 0 3).getD i 0)| < tolerance :=
  ⟨le_rfl, one_pos, c1_solver_residual 1 0 0 3 le_rfl one_pos⟩

-- ### Claim C2

/-- C2: over the one-period grid of `NT` samples — every `NT`, the slice
index `(NT - 1) / 2` being the source's integer floor division — the
half-period unwrap replaces `f` by `f + 2*(pi - f)` at every sample at or
past the midpoint index `(NT - 1) / 2` and leaves every earlier sample
unchanged, preserving the sequence length. -/
theorem c2_unwrap_second_half (NT : ℕ) (f : List ℝ) (hlen : f.length = NT) :
    (unwrapHalf NT f).length = NT ∧
      ∀ i, i < NT →
        (unwrapHalf NT f).getD i 0 = if (NT - 1) / 2 ≤ i
          then f.getD i 0 + 2 * (Real.pi - f.getD i 0)
          else f.getD i 0 := by
  constructor
  · rw [unwrapHalf_length, hlen]
  · intro i hi
    exact unwrapHalf_getD NT f hlen i hi

theorem c2_witness :
    (([0, 1, 2] : List ℝ).length = 3 ∧
      (unwrapHalf 3 [0, 1, 2]).length = 3 ∧
      ∀ i, i < 3 →
        (unwrapHalf 3 ([0, 1, 2] : List ℝ)).getD i 0 = if (3 - 1) / 2 ≤ i
          then ([0, 1, 2] : List ℝ).getD i 0 + 2 * (Real.pi - ([0, 1, 2] : List ℝ).getD i 0)
          else ([0, 1, 2] : List ℝ).getD i 0) ∧
    (([10, 20, 30, 40] : List ℝ).length = 4 ∧
      (unwrapHalf 4 [10, 20, 30, 40]).length = 4 ∧
      ∀ i, i < 4 →
        (unwrapHalf 4 ([10, 20, 30, 40] : List ℝ)).getD i 0 = if (4 - 1) / 2 ≤ i
          then ([10, 20, 30, 40] : List ℝ).getD i 0 +
            2 * (Real.pi - ([10, 20, 30, 40] : List ℝ).getD i 0)
          else ([10, 20, 30, 40] : List ℝ).getD i 0) :=
  ⟨⟨rfl, (c2_unwrap_second_half 3 [0, 1, 2] rfl).1, (c2_unwrap_second_half 3 [0, 1, 2] rfl).2⟩,
    ⟨rfl, (c2_unwrap_second_half 4 [10, 20, 30, 40] rfl).1,
      (c2_unwrap_second_half 4 [10, 20, 30, 40] rfl).2⟩⟩

-- ### Claim C7

/-- C7: if the root solver gives up on the (first such) sample `k` of the
one-period anomaly sequence, the whole entry point aborts with a
`convergenceError` carrying the offending mean-anomaly value, returning no
RV sequence at all. -/
theorem c7_convergence_failure (solve : ℝ → ℝ → Option ℝ)
    (K T t0 w e a VZ startT endT : ℝ) (NT N k : ℕ) (hk : k < NT)
    (hprev : ∀ j, j < k → (solve e ((meanAnoms T t0 NT).getD j 0)).isSome = true)
    (hfail : solve e ((meanAnoms T t0 NT).getD k 0) = none) :
    get_RVs solve K T t0 w e a VZ startT endT NT N =
      .error (.convergenceError ((meanAnoms T t0 NT).getD k 0)) := by
  have hs := solveAll_first_fail solve e (meanAnoms T t0 NT) k
    (by rw [meanAnoms_length]; exact hk) hprev hfail
  unfold get_RVs onePeriodCurve
  simp only [hs]

-- ### Claim C10

/-- C10 (amended): the slice position `(NT-1)/2` at the unwrap is integer
floor division of Python 2 ints (the module's own example runs with
`NT = 1000` and plots), so the unwrap never produces an invalid index: for
every `NT` — even values included — the entry point (with the idealized
solver) returns output and never an error, the slice applying at index
`(NT-1)/2` rounded down; for odd `NT` that index is the exact midpoint
(`2*((NT-1)/2) = NT-1`), for even `NT ≥ 2` the sample just below the half
period (`2*((NT-1)/2) = NT-2`). -/
theorem c10_slice_floor (NT N : ℕ) (K T t0 w e a VZ startT endT : ℝ) :
    (∃ p : List ℝ × List ℝ,
      get_RVs exactSolve K T t0 w e a VZ startT endT NT N = .ok p) ∧
    (∀ err, get_RVs exactSolve K T t0 w e a VZ startT endT NT N ≠ .error err) ∧
    (Odd NT → 2 * ((NT - 1) / 2) = NT - 1) ∧
    (Even NT → 2 ≤ NT → 2 * ((NT - 1) / 2) = NT - 2) ∧
    (∀ f : List ℝ, f.length = NT → ∀ i, i < NT →
      (unwrapHalf NT f).getD i 0 = if (NT - 1) / 2 ≤ i
        then f.getD i 0 + 2 * (Real.pi - f.getD i 0)
        else f.getD i 0) := by
  obtain ⟨ts, RVs, hok⟩ := get_RVs_exact_ok K T t0 w e a VZ startT endT NT N
  refine ⟨⟨(ts, RVs), hok⟩, ?_, ?_, ?_, ?_⟩
  · intro err hc
    rw [hok] at hc
    cases hc
  · intro ho
    obtain ⟨m, hm⟩ := ho
    omega
  · intro he h2
    obtain ⟨m, hm⟩ := he
    omega
  · intro f hlen i hi
    exact unwrapHalf_getD NT f hlen i hi

theorem c10_witness :
    ((∃ p : List ℝ × List ℝ,
      get_RVs exactSolve 0.464 359.51 3998.1 52.2 0.847 0.993 (-68.54) 3600 4200 1000 1000 =
        .ok p) ∧
      2 * ((1000 - 1) / 2) = 1000 - 2) ∧
    2 * ((3 - 1) / 2) = 3 - 1 :=
  ⟨⟨(c10_slice_floor 1000 1000 0.464 359.51 3998.1 52.2 0.847 0.993 (-68.54) 3600 4200).1,
      (c10_slice_floor 1000 1000 0.464 359.51 3998.1 52.2 0.847 0.993 (-68.54)
        3600 4200).2.2.2.1 ⟨500, by norm_num⟩ (by norm_num)⟩,
    (c10_slice_floor 3 5 1 1 0 0 0 1 0 5 6).2.2.1 ⟨1, by norm_num⟩⟩

/-- C10 counterexample: the claim asserts the unwrap slice index is computed
by true (non-integer) division, so that the entry point fails for every
even `NT` — `NT = 1000` of the spec's example scenario included.  In fact
that very run (the module's own example, which executes and plots) returns
output and no error: the index is integer floor division, `999 / 2 = 499`. -/
theorem c10_counterexample :
    Even 1000 ∧
    (∃ p : List ℝ × List ℝ,
      get_RVs exactSolve 0.464 359.51 3998.1 52.2 0.847 0.993 (-68.54) 3600 4200 1000 1000 =
        .ok p) ∧
    ∀ err,
      get_RVs exactSolve 0.464 359.51 3998.1 52.2 0.847 0.993 (-68.54) 3600 4200 1000 1000 ≠
        .error err := by
  obtain ⟨ts, RVs, hok⟩ :=
    get_RVs_exact_ok 0.464 359.51 3998.1 52.2 0.847 0.993 (-68.54) 3600 4200 1000 1000
  refine ⟨⟨500, by norm_num⟩, ⟨(ts, RVs), hok⟩, ?_⟩
  intro err hc
  rw [hok] at hc
  cases hc

-- ### Claim C8

/-- C8 (amended): the entry point performs no parameter validation at all —
for every parameter set (valid or not: eccentricity outside `[0, 1)`,
`NT < 2`, `N < 1` or `T ≤ 0` included), with the idealized solver it
returns a result instead of reporting an invalid-parameter error. -/
theorem c8_no_validation (K T t0 w e a VZ startT endT : ℝ) (NT N : ℕ) :
    ∃ p : List ℝ × List ℝ,
      get_RVs exactSolve K T t0 w e a VZ startT endT NT N = .ok p := by
  obtain ⟨ts, RVs, h⟩ := get_RVs_exact_ok K T t0 w e a VZ startT endT NT N
  exact ⟨(ts, RVs), h⟩

/-- C8 counterexample: with `NT = 1 < 2`, `e = 5` outside `[0, 1)` and
`T = -1 ≤ 0` — all invalid per the spec — the entry point still returns a
result and reports no error of any kind. -/
theorem c8_counterexample :
    (∃ p : List ℝ × List ℝ,
      get_RVs exactSolve 1 (-1) 0 0 5 1 0 5 6 1 2 = .ok p) ∧
    ∀ err, get_RVs exactSolve 1 (-1) 0 0 5 1 0 5 6 1 2 ≠ .error err := by
  obtain ⟨ts, RVs, h⟩ := get_RVs_exact_ok 1 (-1) 0 0 5 1 0 5 6 1 2
  refine ⟨⟨(ts, RVs), h⟩, ?_⟩
  intro err hc
  rw [h] at hc
  cases hc

-- ### Claim C9

/-- C9: whenever the entry point returns, it returns a times sequence of
exactly `N` evenly spaced values across `[start, end]` (first sample at
`start`; for `N ≥ 2` last sample at `end` and constant spacing
`(end - start)/(N - 1)`) and an RV sequence of the same length `N`; for
`N = 1` the times sequence is exactly `[start]`. -/
theorem c9_output_grid (solve : ℝ → ℝ → Option ℝ)
    (K T t0 w e a VZ startT endT : ℝ) (NT N : ℕ) (ts RVs : List ℝ)
    (hN : 1 ≤ N)
    (hrun : get_RVs solve K T t0 w e a VZ startT endT NT N = .ok (ts, RVs)) :
    ts.length = N ∧ RVs.length = N ∧ ts.getD 0 0 = startT ∧
      (N = 1 → ts = [startT]) ∧
      (2 ≤ N → ts.getD (N - 1) 0 = endT ∧
        ∀ i, i + 1 < N →
          ts.getD (i + 1) 0 - ts.getD i 0 = (endT - startT) / ((N : ℝ) - 1)) := by
  unfold get_RVs at hrun
  cases hcurve : onePeriodCurve solve K T t0 w e a VZ NT with
  | error err =>
    rw [hcurve] at hrun
    cases hrun
  | ok p =>
    obtain ⟨t, RV⟩ := p
    rw [hcurve] at hrun
    simp only [Except.ok.injEq, Prod.mk.injEq] at hrun
    obtain ⟨h1, h2⟩ := hrun
    subst h1
    subst h2
    refine ⟨linspace_length startT endT N, ?_, linspace_getD_zero startT endT N hN, ?_, ?_⟩
    · rw [List.length_map, linspace_length]
    · intro h1
      subst h1
      unfold linspace
      rw [if_pos rfl]
    · intro h2
      refine ⟨linspace_getD_last startT endT N h2, ?_⟩
      intro i hi
      rw [linspace_getD startT endT N (i + 1) h2 hi,
        linspace_getD startT endT N i h2 (by omega)]
      have hden : ((N : ℝ) - 1) ≠ 0 := by
        have : (2 : ℝ) ≤ (N : ℝ) := by exact_mod_cast h2
        linarith
      push_cast
      field_simp
      ring

theorem c9_witness :
    (1 ≤ 2 ∧ ∃ ts RVs : List ℝ,
      get_RVs exactSolve 1 1 0 0 0 1 0 5 6 1 2 = .ok (ts, RVs) ∧
        ts.length = 2 ∧ RVs.length = 2 ∧ ts.getD 0 0 = 5) ∧
    (1 ≤ 1 ∧ ∃ ts RVs : List ℝ,
      get_RVs exactSolve 1 1 0 0 0 1 0 5 6 1 1 = .ok (ts, RVs) ∧ ts = [5]) := by
  constructor
  · refine ⟨by norm_num, ?_⟩
    obtain ⟨ts, RVs, h⟩ := get_RVs_exact_ok 1 1 0 0 0 1 0 5 6 1 2
    have hc := c9_output_grid exactSolve 1 1 0 0 0 1 0 5 6 1 2 ts RVs (by norm_num) h
    exact ⟨ts, RVs, h, hc.1, hc.2.1, hc.2.2.1⟩
  · refine ⟨le_rfl, ?_⟩
    obtain ⟨ts, RVs, h⟩ := get_RVs_exact_ok 1 1 0 0 0 1 0 5 6 1 1
    have hc := c9_output_grid exactSolve 1 1 0 0 0 1 0 5 6 1 1 ts RVs le_rfl h
    exact ⟨ts, RVs, h, hc.2.2.2.1 rfl⟩

-- ### Concrete evaluation of one run (T = 2, t0 = 0, NT = 3, e = 0, a = 1,
-- ### K = 1, w = 90, VZ = 0), shared by several claims

theorem map_getD_lt (g : ℝ → ℝ) (l : List ℝ) (i : ℕ) (hi : i < l.length) :
    (l.map g).getD i 0 = g (l.getD i 0) := by
  rw [List.getD_eq_getElem?_getD, List.getElem?_map, List.getElem?_eq_getElem hi,
    Option.map_some', Option.getD_some, List.getD_eq_getElem _ _ hi]

theorem eval_linspace023 : linspace 0 2 3 = [0, 1, 2] := by
  unfold linspace
  rw [if_neg (by norm_num)]
  rw [show List.range 3 = [0, 1, 2] from rfl]
  simp only [List.map_cons, List.map_nil]
  norm_num

theorem eval_meanAnoms023 : meanAnoms 2 0 3 = [0, Real.pi, 2 * Real.pi] := by
  unfold meanAnoms
  rw [show (0 : ℝ) + 2 = 2 from by norm_num, eval_linspace023]
  simp only [List.map_cons, List.map_nil]
  refine congrArg₂ _ ?_ (congrArg₂ _ ?_ (congrArg₂ _ ?_ rfl)) <;> ring

theorem eval_eccAnoms023 :
    (meanAnoms 2 0 3).map (keplerRoot 0) = [0, Real.pi, 2 * Real.pi] := by
  rw [eval_meanAnoms023]
  simp only [List.map_cons, List.map_nil, keplerRoot_circular]

theorem eval_trueAnoms023 :
    trueAnoms 0 1 [0, Real.pi, 2 * Real.pi] = [Real.pi / 2, Real.pi / 2, Real.pi / 2] := by
  unfold trueAnoms
  simp only [List.map_cons, List.map_nil]
  norm_num [Real.arccos_zero]

theorem eval_unwrap023 :
    unwrapHalf 3 [Real.pi / 2, Real.pi / 2, Real.pi / 2] =
      [Real.pi / 2, 3 * Real.pi / 2, 3 * Real.pi / 2] := by
  unfold unwrapHalf
  show [Real.pi / 2] ++ [Real.pi / 2 + 2 * (Real.pi - Real.pi / 2),
      Real.pi / 2 + 2 * (Real.pi - Real.pi / 2)] =
    [Real.pi / 2, 3 * Real.pi / 2, 3 * Real.pi / 2]
  simp only [List.cons_append, List.nil_append]
  refine congrArg₂ _ rfl (congrArg₂ _ ?_ (congrArg₂ _ ?_ rfl)) <;> ring

theorem eval_curve023 :
    onePeriodCurve exactSolve 1 2 0 90 0 1 0 3 = .ok ([0, 1, 2], [-1, 1, 1]) := by
  rw [onePeriodCurve_exact 1 2 0 90 0 1 0 3]
  rw [eval_eccAnoms023, eval_trueAnoms023, eval_unwrap023]
  rw [show (0 : ℝ) + 2 = 2 from by norm_num, eval_linspace023]
  rw [Except.ok.injEq, Prod.mk.injEq]
  refine ⟨rfl, ?_⟩
  simp only [List.map_cons, List.map_nil]
  unfold vr
  have h90 : (90 : ℝ) * (Real.pi / 180) = Real.pi / 2 := by ring
  have h1 : (90 : ℝ) * (Real.pi / 180) + Real.pi / 2 = Real.pi := by rw [h90]; ring
  have h2 : (90 : ℝ) * (Real.pi / 180) + 3 * Real.pi / 2 = 2 * Real.pi := by rw [h90]; ring
  simp only [h1, h2, Real.cos_pi, Real.cos_two_pi]
  norm_num

theorem eval_floor_half : ⌊(1 : ℝ) / 2⌋ = 0 := by
  rw [Int.floor_eq_zero_iff]
  constructor <;> norm_num

theorem eval_resample023 :
    get_RVs exactSolve 1 2 0 90 0 1 0 0 2 3 3 = .ok ([0, 1, 2], [-1, 1, -1]) := by
  unfold get_RVs
  simp only [eval_curve023]
  rw [eval_linspace023]
  rw [Except.ok.injEq, Prod.mk.injEq]
  refine ⟨rfl, ?_⟩
  simp only [List.map_cons, List.map_nil]
  unfold interpPeriodic
  have hzip : ([0, 1, 2] : List ℝ).zip ([-1, 1, 1] : List ℝ) =
      [(0, -1), (1, 1), (2, 1)] := rfl
  have hhead : ([0, 1, 2] : List ℝ).headI = 0 := rfl
  rw [hzip, hhead]
  have hw0 : wrapTime 0 2 0 = 0 := by
    unfold wrapTime
    norm_num
  have hw1 : wrapTime 0 2 1 = 1 := by
    unfold wrapTime
    rw [show ((1 : ℝ) - 0) / 2 = 1 / 2 from by norm_num, eval_floor_half]
    norm_num
  have hw2 : wrapTime 0 2 2 = 0 := by
    unfold wrapTime
    rw [show ((2 : ℝ) - 0) / 2 = 1 from by norm_num, Int.floor_one]
    norm_num
  rw [hw0, hw1, hw2]
  have hseg0 : interpSeg 0 [((0 : ℝ), (-1 : ℝ)), (1, 1), (2, 1)] = -1 := by
    rw [interpSeg]
    rw [if_pos le_rfl]
  have hseg1 : interpSeg 1 [((0 : ℝ), (-1 : ℝ)), (1, 1), (2, 1)] = 1 := by
    rw [interpSeg]
    rw [if_neg (by norm_num), if_pos (by norm_num)]
    norm_num
  rw [hseg0, hseg1]

-- ### Claim C3

/-- C3 (code bug): for the circular orbit `e = 0` the geometry stage divides
by `e`; the source computes `arccos` of a `0/0` quotient (NaN in numpy; `0`
under the total real division of this embedding, so `arccos 0 = pi/2`).  On
the `T = 2`, `t0 = 0`, `NT = 3` grid the mean anomalies are
`[0, pi, 2*pi]` and the solved eccentric anomalies equal them, yet the
computed true anomalies are `[pi/2, pi/2, pi/2]`, so at the very first
sample `f = pi/2 ≠ 0 = M`: the true anomaly does not equal the mean anomaly
as the claim requires. -/
theorem c3_circular_bug :
    meanAnoms 2 0 3 = [0, Real.pi, 2 * Real.pi] ∧
    solveAll exactSolve 0 (meanAnoms 2 0 3) = .ok [0, Real.pi, 2 * Real.pi] ∧
    trueAnoms 0 1 [0, Real.pi, 2 * Real.pi] = [Real.pi / 2, Real.pi / 2, Real.pi / 2] ∧
    Real.pi / 2 ≠ (0 : ℝ) := by
  refine ⟨eval_meanAnoms023, ?_, eval_trueAnoms023, ?_⟩
  · rw [solveAll_exact, eval_eccAnoms023]
  · intro hc
    have := Real.pi_pos
    linarith

-- ### Shape of successful runs

theorem onePeriodCurve_ok_shape (solve : ℝ → ℝ → Option ℝ)
    (K T t0 w e a VZ : ℝ) (NT : ℕ) (t RV : List ℝ)
    (h : onePeriodCurve solve K T t0 w e a VZ NT = .ok (t, RV)) :
    t = linspace t0 (t0 + T) NT ∧ RV.length = NT := by
  unfold onePeriodCurve at h
  simp only at h
  cases hs : solveAll solve e (meanAnoms T t0 NT) with
  | error err =>
    rw [hs] at h
    simp at h
  | ok Es =>
    rw [hs] at h
    simp only [Except.ok.injEq, Prod.mk.injEq] at h
    obtain ⟨h1, h2⟩ := h
    refine ⟨h1.symm, ?_⟩
    rw [← h2, List.length_map, unwrapHalf_length, trueAnoms_length,
      solveAll_ok_length solve e _ _ hs, meanAnoms_length]

theorem get_RVs_ok_shape (solve : ℝ → ℝ → Option ℝ)
    (K T t0 w e a VZ startT endT : ℝ) (NT N : ℕ) (ts RVs : List ℝ)
    (h : get_RVs solve K T t0 w e a VZ startT endT NT N = .ok (ts, RVs)) :
    ∃ t RV : List ℝ, onePeriodCurve solve K T t0 w e a VZ NT = .ok (t, RV) ∧
      ts = linspace startT endT N ∧
      RVs = ts.map (fun x => interpPeriodic T x t RV) := by
  unfold get_RVs at h
  cases hc : onePeriodCurve solve K T t0 w e a VZ NT with
  | error err =>
    rw [hc] at h
    simp at h
  | ok p =>
    obtain ⟨t, RV⟩ := p
    rw [hc] at h
    simp only [Except.ok.injEq, Prod.mk.injEq] at h
    obtain ⟨h1, h2⟩ := h
    refine ⟨t, RV, rfl, h1.symm, ?_⟩
    rw [← h1, ← h2]

-- ### Claim C4

/-- C4: every resampled output value is the linear interpolation of the
one-period reference curve between the two bracketing (nearest) reference
samples, evaluated at the target time reduced modulo the period `T` relative
to the reference grid's phase origin `t0`. -/
theorem c4_resample_interp (solve : ℝ → ℝ → Option ℝ)
    (K T t0 w e a VZ startT endT : ℝ) (NT N : ℕ) (t RV ts RVs : List ℝ)
    (hT : 0 < T) (hNT : 2 ≤ NT)
    (hcurve : onePeriodCurve solve K T t0 w e a VZ NT = .ok (t, RV))
    (hrun : get_RVs solve K T t0 w e a VZ startT endT NT N = .ok (ts, RVs)) :
    ∀ i, i < N →
      t0 ≤ wrapTime t0 T (ts.getD i 0) ∧ wrapTime t0 T (ts.getD i 0) < t0 + T ∧
      ∃ j, j + 1 < NT ∧
        t.getD j 0 ≤ wrapTime t0 T (ts.getD i 0) ∧
        wrapTime t0 T (ts.getD i 0) ≤ t.getD (j + 1) 0 ∧
        RVs.getD i 0 = RV.getD j 0 +
          (wrapTime t0 T (ts.getD i 0) - t.getD j 0) * (RV.getD (j + 1) 0 - RV.getD j 0) /
            (t.getD (j + 1) 0 - t.getD j 0) := by
  obtain ⟨ht_eq, hRVlen⟩ := onePeriodCurve_ok_shape solve K T t0 w e a VZ NT t RV hcurve
  obtain ⟨t2, RV2, hc2, hts, hRVs⟩ :=
    get_RVs_ok_shape solve K T t0 w e a VZ startT endT NT N ts RVs hrun
  rw [hcurve] at hc2
  simp only [Except.ok.injEq, Prod.mk.injEq] at hc2
  obtain ⟨h1, h2⟩ := hc2
  subst h1
  subst h2
  intro i hi
  refine ⟨wrapTime_lb t0 T _ hT, wrapTime_ub t0 T _ hT, ?_⟩
  have hts_len : ts.length = N := by
    rw [hts, linspace_length]
  have htlen : t.length = NT := by
    rw [ht_eq, linspace_length]
  have hRVs_getD : RVs.getD i 0 = interpPeriodic T (ts.getD i 0) t RV := by
    rw [hRVs]
    exact map_getD_lt _ ts i (by rw [hts_len]; exact hi)
  have hhead : t.headI = t0 := by
    rw [ht_eq]
    exact linspace_headI t0 (t0 + T) NT (by omega)
  have hpslen : (t.zip RV).length = NT := by
    rw [List.length_zip, htlen, hRVlen]
    omega
  have hzipD : ∀ j, j < NT → (t.zip RV).getD j (0, 0) = (t.getD j 0, RV.getD j 0) := by
    intro j hj
    exact zip_getD t RV j (by rw [htlen]; exact hj) (by rw [hRVlen]; exact hj)
  have hsort : ∀ j, j + 1 < (t.zip RV).length →
      ((t.zip RV).getD j (0, 0)).1 < ((t.zip RV).getD (j + 1) (0, 0)).1 := by
    intro j hj
    rw [hpslen] at hj
    rw [hzipD j (by omega), hzipD (j + 1) hj]
    rw [ht_eq]
    exact linspace_sorted t0 (t0 + T) NT (by linarith) hNT j hj
  have hlo : ((t.zip RV).getD 0 (0, 0)).1 ≤ wrapTime t0 T (ts.getD i 0) := by
    rw [hzipD 0 (by omega)]
    show t.getD 0 0 ≤ _
    rw [ht_eq, linspace_getD_zero t0 (t0 + T) NT (by omega)]
    exact wrapTime_lb t0 T _ hT
  have hhi : wrapTime t0 T (ts.getD i 0) ≤
      ((t.zip RV).getD ((t.zip RV).length - 1) (0, 0)).1 := by
    rw [hpslen, hzipD (NT - 1) (by omega)]
    show _ ≤ t.getD (NT - 1) 0
    rw [ht_eq, linspace_getD_last t0 (t0 + T) NT hNT]
    exact le_of_lt (wrapTime_ub t0 T _ hT)
  obtain ⟨j, hj1, hj2, hj3, hj4⟩ := interpSeg_bracket (t.zip RV) (wrapTime t0 T (ts.getD i 0))
    (by rw [hpslen]; exact hNT) hsort hlo hhi
  rw [hpslen] at hj1
  rw [hzipD j (by omega)] at hj2 hj4
  rw [hzipD (j + 1) hj1] at hj3 hj4
  refine ⟨j, hj1, hj2, hj3, ?_⟩
  rw [hRVs_getD]
  unfold interpPeriodic
  rw [hhead]
  exact hj4

theorem c4_witness : (0 : ℝ) < 2 ∧ 2 ≤ 3 ∧
    ∀ i, i < 3 →
      (0 : ℝ) ≤ wrapTime 0 2 (([0, 1, 2] : List ℝ).getD i 0) ∧
      wrapTime 0 2 (([0, 1, 2] : List ℝ).getD i 0) < 0 + 2 ∧
      ∃ j, j + 1 < 3 ∧
        ([0, 1, 2] : List ℝ).getD j 0 ≤ wrapTime 0 2 (([0, 1, 2] : List ℝ).getD i 0) ∧
        wrapTime 0 2 (([0, 1, 2] : List ℝ).getD i 0) ≤ ([0, 1, 2] : List ℝ).getD (j + 1) 0 ∧
        ([-1, 1, -1] : List ℝ).getD i 0 = ([-1, 1, 1] : List ℝ).getD j 0 +
          (wrapTime 0 2 (([0, 1, 2] : List ℝ).getD i 0) - ([0, 1, 2] : List ℝ).getD j 0) *
            (([-1, 1, 1] : List ℝ).getD (j + 1) 0 - ([-1, 1, 1] : List ℝ).getD j 0) /
            (([0, 1, 2] : List ℝ).getD (j + 1) 0 - ([0, 1, 2] : List ℝ).getD j 0) :=
  ⟨by norm_num, by norm_num,
    c4_resample_interp exactSolve 1 2 0 90 0 1 0 0 2 3 3 [0, 1, 2] [-1, 1, 1]
      [0, 1, 2] [-1, 1, -1] (by norm_num) (by norm_num) eval_curve023 eval_resample023⟩

-- ### Round-trip lemmas

theorem vr_two_pi (VZ K w e : ℝ) : vr VZ K w (2 * Real.pi) e = vr VZ K w 0 e := by
  unfold vr
  simp only
  rw [Real.cos_add_two_pi, add_zero]

theorem interpPeriodic_grid_node (T t0 : ℝ) (NT : ℕ) (RV : List ℝ)
    (hT : 0 < T) (hNT : 2 ≤ NT) (hRVlen : RV.length = NT)
    (hclose : RV.getD (NT - 1) 0 = RV.getD 0 0) (i : ℕ) (hi : i < NT) :
    interpPeriodic T ((linspace t0 (t0 + T) NT).getD i 0) (linspace t0 (t0 + T) NT) RV =
      RV.getD i 0 := by
  have htlen : (linspace t0 (t0 + T) NT).length = NT := linspace_length t0 (t0 + T) NT
  have hhead : (linspace t0 (t0 + T) NT).headI = t0 :=
    linspace_headI t0 (t0 + T) NT (by omega)
  have hpslen : ((linspace t0 (t0 + T) NT).zip RV).length = NT := by
    rw [List.length_zip, htlen, hRVlen]
    omega
  have hzipD : ∀ j, j < NT → ((linspace t0 (t0 + T) NT).zip RV).getD j (0, 0) =
      ((linspace t0 (t0 + T) NT).getD j 0, RV.getD j 0) := by
    intro j hj
    exact zip_getD _ RV j (by rw [htlen]; exact hj) (by rw [hRVlen]; exact hj)
  have hsort : ∀ j, j + 1 < ((linspace t0 (t0 + T) NT).zip RV).length →
      (((linspace t0 (t0 + T) NT).zip RV).getD j (0, 0)).1 <
        (((linspace t0 (t0 + T) NT).zip RV).getD (j + 1) (0, 0)).1 := by
    intro j hj
    rw [hpslen] at hj
    rw [hzipD j (by omega), hzipD (j + 1) hj]
    exact linspace_sorted t0 (t0 + T) NT (by linarith) hNT j hj
  have hden : (0 : ℝ) < (NT : ℝ) - 1 := by
    have : (2 : ℝ) ≤ (NT : ℝ) := by exact_mod_cast hNT
    linarith
  unfold interpPeriodic
  rw [hhead]
  by_cases hlast : i = NT - 1
  · subst hlast
    have hti : (linspace t0 (t0 + T) NT).getD (NT - 1) 0 = t0 + T :=
      linspace_getD_last t0 (t0 + T) NT hNT
    rw [hti, wrapTime_period_end t0 T hT]
    have hnode := interpSeg_node ((linspace t0 (t0 + T) NT).zip RV) hsort 0
      (by rw [hpslen]; omega)
    rw [hzipD 0 (by omega)] at hnode
    dsimp only at hnode
    rw [linspace_getD_zero t0 (t0 + T) NT (by omega)] at hnode
    rw [hnode, hclose]
  · have hi2 : i < NT - 1 := by omega
    have hx : (linspace t0 (t0 + T) NT).getD i 0 = t0 + T * (i : ℝ) / ((NT : ℝ) - 1) := by
      rw [linspace_getD t0 (t0 + T) NT i hNT hi]
      ring
    have hicast : (i : ℝ) < (NT : ℝ) - 1 := by
      have h1 : (i : ℝ) < ((NT - 1 : ℕ) : ℝ) := by exact_mod_cast hi2
      have h2 : ((NT - 1 : ℕ) : ℝ) = (NT : ℝ) - 1 := by
        have : 1 ≤ NT := by omega
        push_cast [this]
        ring
      linarith
    have hmem_lo : t0 ≤ (linspace t0 (t0 + T) NT).getD i 0 := by
      rw [hx]
      have : (0 : ℝ) ≤ T * (i : ℝ) / ((NT : ℝ) - 1) :=
        div_nonneg (mul_nonneg hT.le (Nat.cast_nonneg i)) hden.le
      linarith
    have hmem_hi : (linspace t0 (t0 + T) NT).getD i 0 < t0 + T := by
      rw [hx]
      have : T * (i : ℝ) / ((NT : ℝ) - 1) < T := by
        rw [div_lt_iff₀ hden]
        nlinarith
      linarith
    rw [wrapTime_of_mem t0 T _ hT hmem_lo hmem_hi]
    have hnode := interpSeg_node ((linspace t0 (t0 + T) NT).zip RV) hsort i
      (by rw [hpslen]; exact hi)
    rw [hzipD i hi] at hnode
    dsimp only at hnode
    exact hnode

-- ### Claim C5

/-- C5 (amended): for every orbital parameter set with `0 < e < 1`, `a > 0`,
`T > 0` and `NT ≥ 2` — any parity, since the unwrap slices at the floor
index for every `NT`; only the degenerate `e = 0`, where the geometry
stage's division by `e` corrupts the curve (C3), is excluded — resampling
the one-period grid back onto itself (`start = t0`, `end = t0 + T`,
`N = NT`, with the idealized exact solver) reproduces the one-period
reference pair `(t, RV)` exactly, value for value. -/
theorem c5_round_trip (K T t0 w e a VZ : ℝ) (NT : ℕ)
    (he0 : 0 < e) (he1 : e < 1) (ha : 0 < a) (hT : 0 < T) (hNT : 2 ≤ NT) :
    ∃ t RV : List ℝ,
      onePeriodCurve exactSolve K T t0 w e a VZ NT = .ok (t, RV) ∧
      get_RVs exactSolve K T t0 w e a VZ t0 (t0 + T) NT NT = .ok (t, RV) := by
  obtain ⟨f2, hf2def⟩ : ∃ f2 : List ℝ,
      unwrapHalf NT (trueAnoms e a ((meanAnoms T t0 NT).map (keplerRoot e))) = f2 :=
    ⟨_, rfl⟩
  have hcurve : onePeriodCurve exactSolve K T t0 w e a VZ NT =
      .ok (linspace t0 (t0 + T) NT, f2.map (fun fk => vr VZ K w fk e)) := by
    rw [onePeriodCurve_exact, hf2def]
  have hflen : (trueAnoms e a ((meanAnoms T t0 NT).map (keplerRoot e))).length = NT := by
    rw [trueAnoms_length, List.length_map, meanAnoms_length]
  have hf2len : f2.length = NT := by
    rw [← hf2def, unwrapHalf_length, hflen]
  have hMs0 : (meanAnoms T t0 NT).getD 0 0 = 0 := by
    rw [meanAnoms_getD T t0 NT 0 (by omega), linspace_getD_zero t0 (t0 + T) NT (by omega)]
    ring
  have hMsL : (meanAnoms T t0 NT).getD (NT - 1) 0 = 2 * Real.pi := by
    rw [meanAnoms_getD T t0 NT (NT - 1) (by omega), linspace_getD_last t0 (t0 + T) NT hNT]
    rw [show t0 + T - t0 = T from by ring]
    field_simp
  have hEs0 : ((meanAnoms T t0 NT).map (keplerRoot e)).getD 0 0 = 0 := by
    rw [map_getD_lt _ _ 0 (by rw [meanAnoms_length]; omega), hMs0,
      keplerRoot_zero_mean e he0.le he1]
  have hEsL : ((meanAnoms T t0 NT).map (keplerRoot e)).getD (NT - 1) 0 = 2 * Real.pi := by
    rw [map_getD_lt _ _ (NT - 1) (by rw [meanAnoms_length]; omega), hMsL,
      keplerRoot_two_pi e he0.le he1]
  have harg : (a * (1 - e ^ 2) / (a * (1 - e * 1)) - 1) / e = 1 := by
    rw [mul_one]
    have h1 : (1 : ℝ) - e ≠ 0 := by linarith
    have h2 : a ≠ 0 := ne_of_gt ha
    have h3 : e ≠ 0 := ne_of_gt he0
    field_simp
    ring
  have hf0 : (trueAnoms e a ((meanAnoms T t0 NT).map (keplerRoot e))).getD 0 0 = 0 := by
    rw [trueAnoms_getD e a _ 0 (by rw [List.length_map, meanAnoms_length]; omega)]
    rw [hEs0, Real.cos_zero, harg, Real.arccos_one]
  have hfL : (trueAnoms e a ((meanAnoms T t0 NT).map (keplerRoot e))).getD (NT - 1) 0 = 0 := by
    rw [trueAnoms_getD e a _ (NT - 1) (by rw [List.length_map, meanAnoms_length]; omega)]
    rw [hEsL, Real.cos_two_pi, harg, Real.arccos_one]
  have hf2_L : f2.getD (NT - 1) 0 = 2 * Real.pi := by
    have hh := unwrapHalf_getD NT _ hflen (NT - 1) (by omega)
    rw [hf2def] at hh
    rw [if_pos (by omega)] at hh
    rw [hh, hfL]
    ring
  have hRVlen : (f2.map (fun fk => vr VZ K w fk e)).length = NT := by
    rw [List.length_map, hf2len]
  have hclose : (f2.map (fun fk => vr VZ K w fk e)).getD (NT - 1) 0 =
      (f2.map (fun fk => vr VZ K w fk e)).getD 0 0 := by
    rw [map_getD_lt _ f2 (NT - 1) (by rw [hf2len]; omega),
      map_getD_lt _ f2 0 (by rw [hf2len]; omega), hf2_L]
    have hh0 := unwrapHalf_getD NT _ hflen 0 (by omega)
    rw [hf2def] at hh0
    by_cases hk : (NT - 1) / 2 ≤ 0
    · rw [if_pos hk] at hh0
      rw [hh0, hf0]
      rw [show (0 : ℝ) + 2 * (Real.pi - 0) = 2 * Real.pi from by ring]
    · rw [if_neg hk] at hh0
      rw [hh0, hf0]
      exact vr_two_pi VZ K w e
  refine ⟨linspace t0 (t0 + T) NT, f2.map (fun fk => vr VZ K w fk e), hcurve, ?_⟩
  unfold get_RVs
  simp only [hcurve]
  rw [Except.ok.injEq, Prod.mk.injEq]
  refine ⟨rfl, ?_⟩
  apply List.ext_getElem
  · rw [List.length_map, linspace_length, hRVlen]
  · intro i h1 h2
    have hilt : i < NT := by
      rw [List.length_map, linspace_length] at h1
      exact h1
    have hb1 : i < (linspace t0 (t0 + T) NT).length := by
      rw [linspace_length]
      exact hilt
    rw [List.getElem_map]
    rw [show (linspace t0 (t0 + T) NT)[i] = (linspace t0 (t0 + T) NT).getD i 0 from
      (List.getD_eq_getElem _ _ hb1).symm]
    rw [show (f2.map (fun fk => vr VZ K w fk e))[i] =
        (f2.map (fun fk => vr VZ K w fk e)).getD i 0 from
      (List.getD_eq_getElem _ _ h2).symm]
    exact interpPeriodic_grid_node T t0 NT _ hT hNT hRVlen hclose i hilt

theorem c5_witness : (0 : ℝ) < 1 / 2 ∧ (1 / 2 : ℝ) < 1 ∧ (0 : ℝ) < 1 ∧ 2 ≤ 4 ∧
    ∃ t RV : List ℝ,
      onePeriodCurve exactSolve 1 1 0 45 (1 / 2) 1 0 4 = .ok (t, RV) ∧
      get_RVs exactSolve 1 1 0 45 (1 / 2) 1 0 0 (0 + 1) 4 4 = .ok (t, RV) :=
  ⟨by norm_num, by norm_num, by norm_num, by norm_num,
    c5_round_trip 1 1 0 45 (1 / 2) 1 0 4 (by norm_num) (by norm_num) (by norm_num)
      (by norm_num) (by norm_num)⟩

/-- C5 counterexample: the claim quantifies over every valid parameter set,
and the circular orbit `e = 0` is valid per the spec's data model.  There
the geometry stage divides by `e` (see C3): in the floating-point source
every true anomaly — hence the whole one-period RV curve and every
resampled value — is NaN, and a NaN sequence reproduces nothing, so the
round trip fails at `e = 0` outright.  In this total-division embedding the
same run (`K = 1`, `T = 2`, `t0 = 0`, `w = 90`, `e = 0`, `a = 1`, `VZ = 0`,
`NT = N = 3`, `start = t0`, `end = t0 + T`) yields concrete values with the
same outcome: the one-period sequence is `[-1, 1, 1]`, and resampling the
grid onto itself gives `[-1, 1, -1]` — the final sample wraps to the phase
origin, and because the corrupted `e = 0` curve does not close
(`RV_0 ≠ RV_2`) the wrapped value differs from the original (numpy's seam
convention, which keeps the other duplicate, would instead give
`[1, 1, 1]` — also not the original).  Either way the resampled sequence
differs from the one-period sequence, refuting the claim at `e = 0`. -/
theorem c5_counterexample :
    ∃ t RV ts RVs : List ℝ,
      onePeriodCurve exactSolve 1 2 0 90 0 1 0 3 = .ok (t, RV) ∧
      get_RVs exactSolve 1 2 0 90 0 1 0 0 2 3 3 = .ok (ts, RVs) ∧
      ts = t ∧ RVs ≠ RV := by
  refine ⟨[0, 1, 2], [-1, 1, 1], [0, 1, 2], [-1, 1, -1],
    eval_curve023, eval_resample023, rfl, ?_⟩
  intro hc
  simp only [List.cons.injEq, and_true] at hc
  have : (-1 : ℝ) = 1 := hc.2.2
  norm_num at this

theorem c7_witness : 0 < 3 ∧ failSolve 0 ((meanAnoms 2 0 3).getD 0 0) = none ∧
    get_RVs failSolve 1 2 0 90 0 1 0 0 2 3 3 = .error (.convergenceError 0) := by
  refine ⟨by norm_num, rfl, ?_⟩
  have h := c7_convergence_failure failSolve 1 2 0 90 0 1 0 0 2 3 3 0 (by norm_num)
    (fun j hj => absurd hj (Nat.not_lt_zero j)) rfl
  rw [eval_meanAnoms023] at h
  simpa using h
